import Mathlib

/-
  Verification of the jsonl-db library (JSON Lines file database).

  The embedding models records as a JSON value type, physical file lines by
  their decode status, and file contents as lists of lines (with a missing
  file represented by none).  Two engine variants exist in the repository and
  are modelled separately:
  - namespace JsonlFile : src/jsonlFile.js (identical to the typed variant),
    whose reader parses every line with JSON.parse and propagates failures;
  - namespace Jsonl : src/lib/jsonl.ts, whose reader skips blank lines and
    lines that fail to parse, and checks file existence first;
  - namespace JsonlDir : the directory-collection facade built on Jsonl.
-/

/-- A JSON value.  Numbers are modelled as integers: no claim in this
development depends on fractional or special floating-point values. -/
inductive Json where
  | null
  | bool (b : Bool)
  | num (n : Int)
  | str (s : String)
  | arr (elems : List Json)
  | obj (fields : List (String × Json))

/-- Source isSingleJson: a value is a single json object iff it is an object
(not null, not an array, not a scalar). -/
def isSingleJson : Json → Bool
  | .obj _ => true
  | _ => false

/-- JavaScript property read on a decoded record: the field value when the
key is a field of the object, otherwise undefined (none).  Records are
treated as plain key-to-value maps (the data model of the spec); names
inherited from the object prototype are outside the model. -/
def getAttr : Json → String → Option Json
  | .obj fields, a => fields.lookup a
  | _, _ => none

/-- Strict equality (===) between two primitive JSON values.  Composite
values (objects, arrays) compare by reference in JavaScript; at every call
site embedded here one side is freshly produced by JSON.parse, so a
composite never compares equal to a caller-supplied value, hence false. -/
def jsPrimEq : Json → Json → Bool
  | .null, .null => true
  | .bool a, .bool b => a == b
  | .num a, .num b => a == b
  | .str a, .str b => a == b
  | _, _ => false

/-- Strict equality (===) where either side may be undefined (none). -/
def jsStrictEq : Option Json → Option Json → Bool
  | none, none => true
  | some a, some b => jsPrimEq a b
  | _, _ => false

/-- One physical line of a JSONL file, by its observable status:
the zero-length line, a nonempty line that is whitespace only, a non-blank
line that is not valid JSON, or a line that decodes to a record. -/
inductive Line where
  | empty
  | blank
  | invalid
  | record (j : Json)

/-- JSON.parse of the raw text of a line: some on success, none when the
parse throws (the empty line, whitespace, and invalid text all fail). -/
def decodeLine : Line → Option Json
  | .record j => some j
  | _ => none

/-- True iff the line trims to the empty string. -/
def isBlankLine : Line → Bool
  | .empty => true
  | .blank => true
  | _ => false

/-- The records of a file, in file order: the decode of every line that
decodes. -/
def decodedRecords (ls : List Line) : List Json :=
  ls.filterMap decodeLine

/-- The records of a possibly missing file. -/
def decodedFile : Option (List Line) → List Json
  | none => []
  | some ls => decodedRecords ls

/-- Errors surfaced by the engines; callback carries an error thrown by a
caller-supplied predicate, transform or line callback. -/
inductive EngErr (ε : Type) where
  | enoent
  | parseFailure
  | emptyFile
  | notObject
  | callback (e : ε)

/-! ## The shared batch traversal core

src/jsonlFile.js readByBatch accumulates decoded records in a buffer; a full
buffer is handed to the callback, a true return stops the loop and sets a
global flag, and a leftover nonempty buffer is flushed after the loop only
when the flag is unset.  The loop below is that code at the level of decoded
records (JSON.parse succeeds on every record line); the result is the list
of buffers the callback was invoked on inside the loop, the stop flag, and
the leftover buffer. -/

def batchLoop (ob : List Json → Bool) (k : Nat) :
    List Json → List Json → List (List Json) × Bool × List Json
  | [], batch => ([], false, batch)
  | j :: rs, batch =>
    if (batch ++ [j]).length = k then
      if ob (batch ++ [j]) then ([batch ++ [j]], true, [])
      else ((batch ++ [j]) :: (batchLoop ob k rs []).1, (batchLoop ob k rs []).2)
    else batchLoop ob k rs (batch ++ [j])

/-- The batch traversal over a list of decoded records: the list of all
buffers handed to the callback (the final flush included) and the stop
flag. -/
def readByBatchRun (ob : List Json → Bool) (k : Nat) (records : List Json) :
    List (List Json) × Bool :=
  if (batchLoop ob k records []).2.2.isEmpty || (batchLoop ob k records []).2.1 then
    ((batchLoop ob k records []).1, (batchLoop ob k records []).2.1)
  else ((batchLoop ob k records []).1 ++ [(batchLoop ob k records []).2.2],
    (batchLoop ob k records []).2.1)

namespace JsonlFile

/-!  Model of src/jsonlFile.js (and its typed twin).  Every operation opens
the file fresh; a missing file surfaces the stream error of
createReadStream (enoent); JSON.parse is applied to every line with no
try/catch, so a line that does not decode aborts the traversal. -/

/-- The loop of read(onLine): JSON.parse each line, hand the record to the
callback, stop when it returns true.  Returns the records the callback was
invoked on, in order. -/
def readGo (onLine : Json → Bool) : List Line → Except (EngErr Empty) (List Json)
  | [] => .ok []
  | l :: ls =>
    match decodeLine l with
    | none => .error EngErr.parseFailure
    | some j =>
      if onLine j then .ok [j]
      else
        match readGo onLine ls with
        | .error e => .error e
        | .ok vs => .ok (j :: vs)

/-- read(onLine) of src/jsonlFile.js. -/
def read (content : Option (List Line)) (onLine : Json → Bool) :
    Except (EngErr Empty) (List Json) :=
  match content with
  | none => .error EngErr.enoent
  | some ls => readGo onLine ls

/-- The loop of readByBatch over raw lines: JSON.parse each line (failures
abort), then the buffer logic of batchLoop. -/
def readByBatchGo (ob : List Json → Bool) (k : Nat) :
    List Line → List Json → Except (EngErr Empty) (List (List Json) × Bool × List Json)
  | [], batch => .ok ([], false, batch)
  | l :: ls, batch =>
    match decodeLine l with
    | none => .error EngErr.parseFailure
    | some j =>
      let b2 := batch ++ [j]
      if b2.length = k then
        if ob b2 then .ok ([b2], true, [])
        else
          match readByBatchGo ob k ls [] with
          | .error e => .error e
          | .ok r => .ok (b2 :: r.1, r.2.1, r.2.2)
      else readByBatchGo ob k ls b2

/-- readByBatch(onBatch, batchSize) of src/jsonlFile.js: returns the list of
buffers the callback was invoked on and the stop flag. -/
def readByBatch (content : Option (List Line)) (ob : List Json → Bool) (k : Nat) :
    Except (EngErr Empty) (List (List Json) × Bool) :=
  match content with
  | none => .error EngErr.enoent
  | some ls =>
    match readByBatchGo ob k ls [] with
    | .error e => .error e
    | .ok r => if r.2.2.isEmpty || r.2.1 then .ok (r.1, r.2.1) else .ok (r.1 ++ [r.2.2], r.2.1)

/-- first() of the typed variant: capture the first yielded line; a missing
line or the zero-length line is falsy and raises the File-is-empty error;
otherwise JSON.parse the line. -/
def first (content : Option (List Line)) : Except (EngErr Empty) Json :=
  match content with
  | none => .error EngErr.enoent
  | some ls =>
    match ls.head? with
    | none => .error EngErr.emptyFile
    | some Line.empty => .error EngErr.emptyFile
    | some l =>
      match decodeLine l with
      | some j => .ok j
      | none => .error EngErr.parseFailure

/-- last() of the typed variant: capture the last yielded line; a missing
line or the zero-length line is falsy and raises the File-is-empty error;
otherwise JSON.parse the line. -/
def last (content : Option (List Line)) : Except (EngErr Empty) Json :=
  match content with
  | none => .error EngErr.enoent
  | some ls =>
    match ls.getLast? with
    | none => .error EngErr.emptyFile
    | some Line.empty => .error EngErr.emptyFile
    | some l =>
      match decodeLine l with
      | some j => .ok j
      | none => .error EngErr.parseFailure

/-- findWhere(attribute, value): read with a callback that records the first
line whose field strictly equals the value and stops there.  The loop of
read is inlined with that callback; the file is given by its decoded
records. -/
def findWhere (a : String) (v : Option Json) : List Json → Option Json
  | [] => none
  | j :: rs => if jsStrictEq (getAttr j a) v then some j else findWhere a v rs

/-!  The mutation engine.  temporaryFileTask supplies a fresh scratch path
(no file is created there), runs the task, and afterwards unlinks whatever
is at the path, treating an already-missing file as success.  The task
reads the source with this.read, appends kept records to the scratch file
with add (which creates the file on first append and rejects non-objects),
then renames the scratch path over the source path.  The scratch state is
an Option (List Line): none while no add has created the file. -/

/-- add(o) on the scratch file: reject values that are not single json
objects, else append the encoded record as one line (creating the file when
absent). -/
def addToScratch {ε : Type} (j : Json) (tmp : Option (List Line)) :
    Except (EngErr ε) (Option (List Line)) :=
  if isSingleJson j then .ok (some (tmp.getD [] ++ [Line.record j])) else .error EngErr.notObject

/-- The read loop of a mutation: JSON.parse each source line (failures
abort), run the callback step on the record, threading the scratch file
state.  The mutation callbacks always continue (they return false). -/
def mutateLoop {ε : Type} (step : Json → Option (List Line) → Except (EngErr ε) (Option (List Line))) :
    List Line → Option (List Line) → Except (EngErr ε) (Option (List Line))
  | [], tmp => .ok tmp
  | l :: ls, tmp =>
    match decodeLine l with
    | none => .error EngErr.parseFailure
    | some j =>
      match step j tmp with
      | .error e => .error e
      | .ok tmp2 => mutateLoop step ls tmp2

/-- The copy-rewrite shape shared by the four mutations: read the source,
build the scratch file, then rename the scratch path over the source path.
The source content is written at exactly one place, the rename; a rename
from a scratch path at which no file was ever created fails with enoent.
The pair returned is the final source content and the outcome. -/
def runMutation {ε : Type}
    (step : Json → Option (List Line) → Except (EngErr ε) (Option (List Line)))
    (src : Option (List Line)) : Option (List Line) × Except (EngErr ε) Unit :=
  match src with
  | none => (none, .error EngErr.enoent)
  | some ls =>
    match mutateLoop step ls none with
    | .error e => (some ls, .error e)
    | .ok none => (some ls, .error EngErr.enoent)
    | .ok (some c) => (some c, .ok ())

/-- The per-record step of updateMatch(matchFn, updateFn): a matching record
is replaced by the transform result before the append, any other record is
appended unchanged; callback errors propagate. -/
def updateMatchStep {ε : Type} (m : Json → Except ε Bool) (u : Json → Except ε Json)
    (j : Json) (tmp : Option (List Line)) : Except (EngErr ε) (Option (List Line)) :=
  match m j with
  | .error e => .error (EngErr.callback e)
  | .ok true =>
    match u j with
    | .error e => .error (EngErr.callback e)
    | .ok j2 => addToScratch j2 tmp
  | .ok false => addToScratch j tmp

/-- The per-record step of updateWhere(attribute, value, updateFn). -/
def updateWhereStep {ε : Type} (a : String) (v : Option Json) (u : Json → Except ε Json)
    (j : Json) (tmp : Option (List Line)) : Except (EngErr ε) (Option (List Line)) :=
  if jsStrictEq (getAttr j a) v then
    match u j with
    | .error e => .error (EngErr.callback e)
    | .ok j2 => addToScratch j2 tmp
  else addToScratch j tmp

/-- The per-record step of deleteMatch(matchFn): matching records are
omitted, the rest are appended; callback errors propagate. -/
def deleteMatchStep {ε : Type} (m : Json → Except ε Bool)
    (j : Json) (tmp : Option (List Line)) : Except (EngErr ε) (Option (List Line)) :=
  match m j with
  | .error e => .error (EngErr.callback e)
  | .ok true => .ok tmp
  | .ok false => addToScratch j tmp

/-- The per-record step of deleteWhere(attribute, value): a record is kept
iff its field is not strictly equal to the value. -/
def deleteWhereStep {ε : Type} (a : String) (v : Option Json)
    (j : Json) (tmp : Option (List Line)) : Except (EngErr ε) (Option (List Line)) :=
  if jsStrictEq (getAttr j a) v then .ok tmp else addToScratch j tmp

/-- updateMatch(matchFn, updateFn) of src/jsonlFile.js. -/
def updateMatch {ε : Type} (m : Json → Except ε Bool) (u : Json → Except ε Json)
    (src : Option (List Line)) : Option (List Line) × Except (EngErr ε) Unit :=
  runMutation (updateMatchStep m u) src

/-- updateWhere(attribute, value, updateFn) of src/jsonlFile.js. -/
def updateWhere {ε : Type} (a : String) (v : Option Json) (u : Json → Except ε Json)
    (src : Option (List Line)) : Option (List Line) × Except (EngErr ε) Unit :=
  runMutation (updateWhereStep a v u) src

/-- deleteMatch(matchFn) of src/jsonlFile.js. -/
def deleteMatch {ε : Type} (m : Json → Except ε Bool)
    (src : Option (List Line)) : Option (List Line) × Except (EngErr ε) Unit :=
  runMutation (deleteMatchStep m) src

/-- deleteWhere(attribute, value) of src/jsonlFile.js. -/
def deleteWhere {ε : Type} (a : String) (v : Option Json)
    (src : Option (List Line)) : Option (List Line) × Except (EngErr ε) Unit :=
  runMutation (deleteWhereStep a v) src

end JsonlFile

namespace Jsonl

/-!  Model of src/lib/jsonl.ts.  Both readers first check that the file
exists and produce nothing when it does not; in the line loop a line that
trims to the empty string is skipped, and a line that fails JSON.parse is
skipped with a console warning. -/

/-- The loop of read(onBatch, batchSize): skip blank lines, skip lines that
fail to parse, buffer the rest; a full buffer goes to the callback, whose
errors propagate.  Result: buffers invoked in the loop, stop flag, leftover
buffer. -/
def readLoop {ε : Type} (ob : List Json → Except ε Bool) (k : Nat) :
    List Line → List Json → Except ε (List (List Json) × Bool × List Json)
  | [], batch => .ok ([], false, batch)
  | l :: ls, batch =>
    if isBlankLine l then readLoop ob k ls batch
    else
      match decodeLine l with
      | none => readLoop ob k ls batch
      | some j =>
        let b2 := batch ++ [j]
        if b2.length = k then
          match ob b2 with
          | .error e => .error e
          | .ok true => .ok ([b2], true, [])
          | .ok false =>
            match readLoop ob k ls [] with
            | .error e => .error e
            | .ok r => .ok (b2 :: r.1, r.2.1, r.2.2)
        else readLoop ob k ls b2

/-- read(onBatch, batchSize) of src/lib/jsonl.ts: a missing file reads as
nothing; a leftover nonempty buffer is flushed once when no stop was
signalled, its return value ignored.  Returns every buffer handed to the
callback and the stop flag. -/
def read {ε : Type} (content : Option (List Line)) (ob : List Json → Except ε Bool) (k : Nat) :
    Except ε (List (List Json) × Bool) :=
  match content with
  | none => .ok ([], false)
  | some ls =>
    match readLoop ob k ls [] with
    | .error e => .error e
    | .ok r =>
      if r.2.2.isEmpty || r.2.1 then .ok (r.1, r.2.1)
      else
        match ob r.2.2 with
        | .error e => .error e
        | .ok _ => .ok (r.1 ++ [r.2.2], r.2.1)

/-- The loop of readLineByLine(onLine): blank lines are skipped; the
JSON.parse of the line and the callback call sit inside one try block whose
catch warns and continues, so an error thrown by the callback is swallowed
exactly like a parse failure; only a strict true return stops the loop.
Returns the records the callback was invoked on. -/
def readLineByLineGo {ε : Type} (onLine : Json → Except ε Bool) : List Line → List Json
  | [] => []
  | l :: ls =>
    if isBlankLine l then readLineByLineGo onLine ls
    else
      match decodeLine l with
      | none => readLineByLineGo onLine ls
      | some j =>
        match onLine j with
        | .error _ => j :: readLineByLineGo onLine ls
        | .ok true => [j]
        | .ok false => j :: readLineByLineGo onLine ls

/-- readLineByLine(onLine) of src/lib/jsonl.ts. -/
def readLineByLine {ε : Type} (content : Option (List Line)) (onLine : Json → Except ε Bool) :
    List Json :=
  match content with
  | none => []
  | some ls => readLineByLineGo onLine ls

/-- read with a pure callback never errors; this is its value. -/
def batches (content : Option (List Line)) (ob : List Json → Bool) (k : Nat) :
    List (List Json) × Bool :=
  match read content (fun b => (Except.ok (ob b) : Except Empty Bool)) k with
  | .ok r => r
  | .error e => e.elim

/-- count() of src/lib/jsonl.ts: zero for a missing file, else read with the
default batch size of 1000, summing the batch lengths. -/
def count (content : Option (List Line)) : Nat :=
  match content with
  | none => 0
  | some _ => ((batches content (fun _ => false) 1000).1.map List.length).sum

/-- read at the file-system level: the reader makes no write call, so the
file content is paired untouched with the traversal result. -/
def readFS {ε : Type} (content : Option (List Line)) (ob : List Json → Except ε Bool)
    (k : Nat) : Option (List Line) × Except ε (List (List Json) × Bool) :=
  (content, read content ob k)

/-- readLineByLine at the file-system level: no write call is made. -/
def readLineByLineFS {ε : Type} (content : Option (List Line))
    (onLine : Json → Except ε Bool) : Option (List Line) × List Json :=
  (content, readLineByLine content onLine)

end Jsonl

namespace JsonlDir

/-!  Model of the directory-collection facade: each operation runs
jsonlFile.read of src/lib/jsonl.ts with the default batch size and a
callback that only accumulates into a local array and returns false; no
write to the file is performed, so the file content is returned untouched
next to the computed array. -/

/-- update(matchFn, updateFn) of the facade: per batch, push the transform
of each matching record; the file is only read. -/
def update (content : Option (List Line)) (m : Json → Bool) (u : Json → Json) :
    Option (List Line) × List Json :=
  (content, (Jsonl.batches content (fun _ => false) 1000).1.foldl
    (fun acc b => acc ++ (b.filter m).map u) [])

/-- delete(matchFn) of the facade: per batch, push each record that does not
match; the file is only read. -/
def delete (content : Option (List Line)) (m : Json → Bool) :
    Option (List Line) × List Json :=
  (content, (Jsonl.batches content (fun _ => false) 1000).1.foldl
    (fun acc b => acc ++ b.filter (fun j => !(m j))) [])

end JsonlDir

/-! ## Properties of the batch traversal core -/

theorem batchLoop_full (ob : List Json → Bool) (k : Nat) :
    ∀ (rs acc : List Json), acc.length < k →
      ∀ b ∈ (batchLoop ob k rs acc).1, b.length = k := by
  intro rs
  induction rs with
  | nil =>
    intro acc _ b hb
    simp [batchLoop] at hb
  | cons j rs ih =>
    intro acc hacc b hb
    have hk : 0 < k := Nat.lt_of_le_of_lt (Nat.zero_le _) hacc
    simp only [batchLoop] at hb
    by_cases hlen : (acc ++ [j]).length = k
    · simp only [if_pos hlen] at hb
      by_cases hob : ob (acc ++ [j]) = true
      · simp only [if_pos hob] at hb
        have hb2 : b = acc ++ [j] := by simpa using hb
        rw [hb2]; exact hlen
      · simp only [if_neg hob] at hb
        rcases List.mem_cons.mp hb with h | h
        · rw [h]; exact hlen
        · exact ih [] (by simpa using hk) b h
    · simp only [if_neg hlen] at hb
      have hlena : (acc ++ [j]).length = acc.length + 1 := by simp
      exact ih (acc ++ [j]) (by omega) b hb

theorem batchLoop_no_stop (ob : List Json → Bool) (k : Nat) :
    ∀ (rs acc : List Json), acc.length < k → (batchLoop ob k rs acc).2.1 = false →
      (batchLoop ob k rs acc).1.flatten ++ (batchLoop ob k rs acc).2.2 = acc ++ rs
      ∧ (batchLoop ob k rs acc).2.2.length < k
      ∧ ∀ b ∈ (batchLoop ob k rs acc).1, ob b = false := by
  intro rs
  induction rs with
  | nil =>
    intro acc hacc _
    exact ⟨by simp [batchLoop], by simpa [batchLoop] using hacc, by simp [batchLoop]⟩
  | cons j rs ih =>
    intro acc hacc hstop
    have hk : 0 < k := Nat.lt_of_le_of_lt (Nat.zero_le _) hacc
    simp only [batchLoop] at hstop ⊢
    by_cases hlen : (acc ++ [j]).length = k
    · simp only [if_pos hlen] at hstop ⊢
      by_cases hob : ob (acc ++ [j]) = true
      · simp only [if_pos hob] at hstop
        simp at hstop
      · simp only [if_neg hob] at hstop ⊢
        obtain ⟨e1, e2, e3⟩ := ih [] (by simpa using hk) hstop
        refine ⟨?_, e2, ?_⟩
        · rw [List.flatten_cons, List.append_assoc, e1]
          simp
        · intro b hb
          rcases List.mem_cons.mp hb with h | h
          · rw [h]; simpa using hob
          · exact e3 b h
    · simp only [if_neg hlen] at hstop ⊢
      have hlena : (acc ++ [j]).length = acc.length + 1 := by simp
      obtain ⟨e1, e2, e3⟩ := ih (acc ++ [j]) (by omega) hstop
      refine ⟨?_, e2, e3⟩
      rw [e1]; simp

theorem batchLoop_stop (ob : List Json → Bool) (k : Nat) :
    ∀ (rs acc : List Json), acc.length < k → (batchLoop ob k rs acc).2.1 = true →
      (batchLoop ob k rs acc).2.2 = []
      ∧ (∃ suf, acc ++ rs = (batchLoop ob k rs acc).1.flatten ++ suf)
      ∧ (∃ bl, (batchLoop ob k rs acc).1.getLast? = some bl ∧ ob bl = true)
      ∧ ∀ b ∈ (batchLoop ob k rs acc).1.dropLast, ob b = false := by
  intro rs
  induction rs with
  | nil =>
    intro acc _ hstop
    simp [batchLoop] at hstop
  | cons j rs ih =>
    intro acc hacc hstop
    have hk : 0 < k := Nat.lt_of_le_of_lt (Nat.zero_le _) hacc
    simp only [batchLoop] at hstop ⊢
    by_cases hlen : (acc ++ [j]).length = k
    · simp only [if_pos hlen] at hstop ⊢
      by_cases hob : ob (acc ++ [j]) = true
      · simp only [if_pos hob]
        refine ⟨by simp, ⟨rs, by simp⟩, ⟨acc ++ [j], by simp, hob⟩, by simp⟩
      · simp only [if_neg hob] at hstop ⊢
        obtain ⟨e1, ⟨suf, hsuf⟩, ⟨bl, hbl, hobbl⟩, hdrop⟩ := ih [] (by simpa using hk) hstop
        have hne : (batchLoop ob k rs []).1 ≠ [] := by
          intro hnil; rw [hnil] at hbl; simp at hbl
        refine ⟨e1, ⟨suf, ?_⟩, ⟨bl, ?_, hobbl⟩, ?_⟩
        · rw [List.flatten_cons, List.append_assoc, ← hsuf]
          simp
        · rcases hr : (batchLoop ob k rs []).1 with _ | ⟨x, xs⟩
          · exact absurd hr hne
          · rw [hr] at hbl
            rw [List.getLast?_cons_cons]
            exact hbl
        · rcases hr : (batchLoop ob k rs []).1 with _ | ⟨x, xs⟩
          · exact absurd hr hne
          · rw [hr] at hdrop
            rw [List.dropLast_cons₂]
            intro b hb
            rcases List.mem_cons.mp hb with h | h
            · rw [h]; simpa using hob
            · exact hdrop b h
    · simp only [if_neg hlen] at hstop ⊢
      have hlena : (acc ++ [j]).length = acc.length + 1 := by simp
      obtain ⟨e1, ⟨suf, hsuf⟩, e3, e4⟩ := ih (acc ++ [j]) (by omega) hstop
      refine ⟨e1, ⟨suf, ?_⟩, e3, e4⟩
      rw [← hsuf]; simp

theorem flatten_length_full {k : Nat} :
    ∀ (bs : List (List Json)), (∀ b ∈ bs, b.length = k) →
      bs.flatten.length = bs.length * k := by
  intro bs
  induction bs with
  | nil => intro _; simp
  | cons b bs ih =>
    intro h
    have hb : b.length = k := h b (List.mem_cons.mpr (Or.inl rfl))
    have hrest := ih (fun x hx => h x (List.mem_cons.mpr (Or.inr hx)))
    simp [List.flatten_cons, hb, hrest, Nat.succ_mul, Nat.add_comm]

theorem ceil_div_count (k B L : Nat) (hk : 0 < k) (hL : L < k) :
    (B * k + L + k - 1) / k = B + (if L = 0 then 0 else 1) := by
  cases L with
  | zero =>
    have e : B * k + 0 + k - 1 = k * B + (k - 1) := by
      rw [Nat.mul_comm]; omega
    rw [e, Nat.mul_add_div hk, Nat.div_eq_of_lt (by omega)]
    simp
  | succ L2 =>
    have e1 : k * (B + 1) = k * B + k := by ring
    have e2 : B * k = k * B := Nat.mul_comm B k
    have e : B * k + (L2 + 1) + k - 1 = k * (B + 1) + L2 := by omega
    rw [e, Nat.mul_add_div hk, Nat.div_eq_of_lt (by omega)]
    simp

theorem readByBatchRun_snd (ob : List Json → Bool) (k : Nat) (records : List Json) :
    (readByBatchRun ob k records).2 = (batchLoop ob k records []).2.1 := by
  unfold readByBatchRun
  split <;> rfl

theorem readByBatchRun_no_stop (ob : List Json → Bool) (k : Nat) (records : List Json)
    (hk : 0 < k) (hstop : (batchLoop ob k records []).2.1 = false) :
    (readByBatchRun ob k records).1.flatten = records
    ∧ (readByBatchRun ob k records).1.length = (records.length + k - 1) / k
    ∧ (∀ b ∈ (readByBatchRun ob k records).1.dropLast, b.length = k)
    ∧ (∀ b ∈ (readByBatchRun ob k records).1, 0 < b.length ∧ b.length ≤ k)
    ∧ (∀ b ∈ (readByBatchRun ob k records).1.dropLast, ob b = false) := by
  have hacc : ([] : List Json).length < k := by simpa using hk
  obtain ⟨e1, e2, e3⟩ := batchLoop_no_stop ob k records [] hacc hstop
  have hfull := batchLoop_full ob k records [] hacc
  have hflat := flatten_length_full (batchLoop ob k records []).1 hfull
  simp only [List.nil_append] at e1
  set r := batchLoop ob k records [] with hr
  by_cases hleft : r.2.2.isEmpty = true
  · have hleft2 : r.2.2 = [] := List.isEmpty_iff.mp hleft
    have hrun : readByBatchRun ob k records = (r.1, r.2.1) := by
      unfold readByBatchRun
      rw [← hr, if_pos]
      rw [hleft, Bool.true_or]
    rw [hrun]
    rw [hleft2] at e1
    simp only [List.append_nil] at e1
    have hrl : records.length = r.1.length * k := by
      have hh := congrArg List.length e1
      rw [hflat] at hh
      omega
    refine ⟨e1, ?_, ?_, ?_, ?_⟩
    · rw [hrl]
      have hc := ceil_div_count k r.1.length 0 hk hk
      simpa using hc.symm
    · intro b hb
      exact hfull b (List.dropLast_subset _ hb)
    · intro b hb
      have := hfull b hb
      omega
    · intro b hb
      exact e3 b (List.dropLast_subset _ hb)
  · have hleft2 : r.2.2.isEmpty = false := by
      simpa using hleft
    have hrun : readByBatchRun ob k records = (r.1 ++ [r.2.2], r.2.1) := by
      unfold readByBatchRun
      rw [← hr, if_neg]
      rw [hleft2, hstop]
      simp
    rw [hrun]
    have hlnil : r.2.2 ≠ [] := by
      intro hnil
      rw [hnil] at hleft2
      simp at hleft2
    have hlpos : 0 < r.2.2.length := by
      cases hcc : r.2.2 with
      | nil => exact absurd hcc hlnil
      | cons x xs => simp [hcc]
    have hflat2 : (r.1 ++ [r.2.2]).flatten = records := by
      simpa using e1
    have hrl : records.length = r.1.length * k + r.2.2.length := by
      have hh := congrArg List.length e1
      rw [List.length_append, hflat] at hh
      omega
    refine ⟨hflat2, ?_, ?_, ?_, ?_⟩
    · rw [hrl]
      have hc := ceil_div_count k r.1.length r.2.2.length hk e2
      rw [hc, if_neg (by omega)]
      simp
    · intro b hb
      rw [List.dropLast_concat] at hb
      exact hfull b hb
    · intro b hb
      rcases List.mem_append.mp hb with h | h
      · have := hfull b h
        omega
      · have hbl : b = r.2.2 := by simpa using h
        rw [hbl]
        omega
    · intro b hb
      rw [List.dropLast_concat] at hb
      exact e3 b hb

theorem readByBatchRun_stop (ob : List Json → Bool) (k : Nat) (records : List Json)
    (hk : 0 < k) (hstop : (batchLoop ob k records []).2.1 = true) :
    (∀ b ∈ (readByBatchRun ob k records).1, b.length = k)
    ∧ (readByBatchRun ob k records).1.flatten
        = records.take ((readByBatchRun ob k records).1.length * k)
    ∧ (∃ bl, (readByBatchRun ob k records).1.getLast? = some bl ∧ ob bl = true)
    ∧ (∀ b ∈ (readByBatchRun ob k records).1.dropLast, ob b = false) := by
  have hacc : ([] : List Json).length < k := by simpa using hk
  obtain ⟨e1, ⟨suf, hsuf⟩, ⟨bl, hbl, hobbl⟩, hdrop⟩ := batchLoop_stop ob k records [] hacc hstop
  have hfull := batchLoop_full ob k records [] hacc
  have hflat := flatten_length_full (batchLoop ob k records []).1 hfull
  simp only [List.nil_append] at hsuf
  set r := batchLoop ob k records [] with hr
  have hrun1 : (readByBatchRun ob k records).1 = r.1 := by
    unfold readByBatchRun
    rw [← hr, hstop]
    simp
  rw [hrun1]
  refine ⟨hfull, ?_, ⟨bl, hbl, hobbl⟩, hdrop⟩
  rw [hsuf, ← hflat, List.take_left]

/-! ## Refinement: the two line-level batch readers against the core -/

theorem readByBatchGo_records (ob : List Json → Bool) (k : Nat) :
    ∀ (rs acc : List Json),
      JsonlFile.readByBatchGo ob k (rs.map Line.record) acc
        = .ok (batchLoop ob k rs acc) := by
  intro rs
  induction rs with
  | nil => intro acc; rfl
  | cons j rs ih =>
    intro acc
    simp only [List.map_cons, JsonlFile.readByBatchGo, decodeLine, batchLoop]
    by_cases hlen : (acc ++ [j]).length = k
    · simp only [if_pos hlen]
      by_cases hob : ob (acc ++ [j]) = true
      · simp only [if_pos hob]
      · simp only [if_neg hob, ih []]
    · simp only [if_neg hlen, ih (acc ++ [j])]

theorem readByBatch_records (ob : List Json → Bool) (k : Nat) (rs : List Json) :
    JsonlFile.readByBatch (some (rs.map Line.record)) ob k
      = .ok (readByBatchRun ob k rs) := by
  simp only [JsonlFile.readByBatch, readByBatchGo_records, readByBatchRun]
  split <;> rfl

theorem readLoop_pure (ob : List Json → Bool) (k : Nat) :
    ∀ (ls : List Line) (acc : List Json),
      Jsonl.readLoop (fun b => (Except.ok (ob b) : Except Empty Bool)) k ls acc
        = .ok (batchLoop ob k (decodedRecords ls) acc) := by
  intro ls
  induction ls with
  | nil => intro acc; rfl
  | cons l ls ih =>
    intro acc
    cases l with
    | empty => simpa [Jsonl.readLoop, isBlankLine, decodedRecords, decodeLine] using ih acc
    | blank => simpa [Jsonl.readLoop, isBlankLine, decodedRecords, decodeLine] using ih acc
    | invalid => simpa [Jsonl.readLoop, isBlankLine, decodedRecords, decodeLine] using ih acc
    | record j =>
      have hd : decodedRecords (Line.record j :: ls) = j :: decodedRecords ls := by
        simp [decodedRecords, decodeLine]
      rw [hd]
      simp only [Jsonl.readLoop, isBlankLine, decodeLine, batchLoop]
      by_cases hlen : (acc ++ [j]).length = k
      · simp only [if_pos hlen]
        by_cases hob : ob (acc ++ [j]) = true
        · simp [hob]
        · have hob2 : ob (acc ++ [j]) = false := by simpa using hob
          simp [hob2, ih []]
      · simp only [if_neg hlen, ih (acc ++ [j])]
        simp

theorem read_pure (ob : List Json → Bool) (k : Nat) (content : Option (List Line)) :
    Jsonl.read content (fun b => (Except.ok (ob b) : Except Empty Bool)) k
      = .ok (readByBatchRun ob k (decodedFile content)) := by
  cases content with
  | none => rfl
  | some ls =>
    simp only [Jsonl.read, readLoop_pure, decodedFile, readByBatchRun]
    split <;> rfl

theorem batches_eq (ob : List Json → Bool) (k : Nat) (content : Option (List Line)) :
    Jsonl.batches content ob k = readByBatchRun ob k (decodedFile content) := by
  simp [Jsonl.batches, read_pure]

theorem batchLoop_false_flag (k : Nat) :
    ∀ (rs acc : List Json),
      (batchLoop (fun _ => false) k rs acc).2.1 = false := by
  intro rs
  induction rs with
  | nil => intro acc; rfl
  | cons j rs ih =>
    intro acc
    simp only [batchLoop]
    by_cases hlen : (acc ++ [j]).length = k
    · simp only [if_pos hlen, Bool.false_eq_true, if_false]
      exact ih []
    · simp only [if_neg hlen]
      exact ih (acc ++ [j])

/-! ## Properties of the mutation engine -/

theorem runMutation_error {ε : Type}
    (step : Json → Option (List Line) → Except (EngErr ε) (Option (List Line)))
    (src : Option (List Line)) (e : EngErr ε)
    (h : (JsonlFile.runMutation step src).2 = .error e) :
    (JsonlFile.runMutation step src).1 = src := by
  cases src with
  | none => rfl
  | some ls =>
    cases hm : JsonlFile.mutateLoop step ls none with
    | error e2 => simp [JsonlFile.runMutation, hm]
    | ok t =>
      cases t with
      | none => simp [JsonlFile.runMutation, hm]
      | some c => simp [JsonlFile.runMutation, hm] at h

theorem runMutation_ok {ε : Type}
    (step : Json → Option (List Line) → Except (EngErr ε) (Option (List Line)))
    (src : Option (List Line))
    (h : (JsonlFile.runMutation step src).2 = .ok ()) :
    ∃ ls c, src = some ls ∧ JsonlFile.mutateLoop step ls none = .ok (some c)
      ∧ (JsonlFile.runMutation step src).1 = some c := by
  cases src with
  | none => simp [JsonlFile.runMutation] at h
  | some ls =>
    cases hm : JsonlFile.mutateLoop step ls none with
    | error e2 => simp [JsonlFile.runMutation, hm] at h
    | ok t =>
      cases t with
      | none => simp [JsonlFile.runMutation, hm] at h
      | some c =>
        exact ⟨ls, c, rfl, hm, by simp [JsonlFile.runMutation, hm]⟩

/-- Scratch lines are record lines: what add writes. -/
def scratchRecordsOnly (t : Option (List Line)) : Prop :=
  ∀ l ∈ t.getD [], ∃ j2, l = Line.record j2

theorem addToScratch_records {ε : Type} (j : Json) (t t2 : Option (List Line))
    (h : JsonlFile.addToScratch (ε := ε) j t = .ok t2)
    (hp : scratchRecordsOnly t) : scratchRecordsOnly t2 := by
  unfold JsonlFile.addToScratch at h
  by_cases hs : isSingleJson j = true
  · rw [if_pos hs] at h
    have ht2 : t2 = some (t.getD [] ++ [Line.record j]) := by
      simpa using h.symm
    rw [ht2]
    intro l hl
    have hl2 : l ∈ t.getD [] ∨ l = Line.record j := by simpa using hl
    rcases hl2 with h2 | h2
    · exact hp l h2
    · exact ⟨j, h2⟩
  · rw [if_neg hs] at h
    simp at h

theorem mutateLoop_records {ε : Type}
    (step : Json → Option (List Line) → Except (EngErr ε) (Option (List Line)))
    (hstep : ∀ j t t2, step j t = .ok t2 → scratchRecordsOnly t → scratchRecordsOnly t2) :
    ∀ (ls : List Line) (t t2 : Option (List Line)),
      JsonlFile.mutateLoop step ls t = .ok t2 → scratchRecordsOnly t → scratchRecordsOnly t2 := by
  intro ls
  induction ls with
  | nil =>
    intro t t2 h hp
    have : t = t2 := by simpa [JsonlFile.mutateLoop] using h
    rw [← this]; exact hp
  | cons l ls ih =>
    intro t t2 h hp
    cases hl : decodeLine l with
    | none => simp [JsonlFile.mutateLoop, hl] at h
    | some j =>
      simp only [JsonlFile.mutateLoop, hl] at h
      cases hs : step j t with
      | error e => simp [hs] at h
      | ok tm =>
        simp only [hs] at h
        exact ih tm t2 h (hstep j t tm hs hp)

theorem updateMatchStep_records {ε : Type} (m : Json → Except ε Bool)
    (u : Json → Except ε Json) (j : Json) (t t2 : Option (List Line))
    (h : JsonlFile.updateMatchStep m u j t = .ok t2)
    (hp : scratchRecordsOnly t) : scratchRecordsOnly t2 := by
  unfold JsonlFile.updateMatchStep at h
  cases hm : m j with
  | error e => simp [hm] at h
  | ok b =>
    cases b with
    | true =>
      simp only [hm] at h
      cases hu : u j with
      | error e => simp [hu] at h
      | ok j2 =>
        simp only [hu] at h
        exact addToScratch_records j2 t t2 h hp
    | false =>
      simp only [hm] at h
      exact addToScratch_records j t t2 h hp

theorem updateWhereStep_records {ε : Type} (a : String) (v : Option Json)
    (u : Json → Except ε Json) (j : Json) (t t2 : Option (List Line))
    (h : JsonlFile.updateWhereStep a v u j t = .ok t2)
    (hp : scratchRecordsOnly t) : scratchRecordsOnly t2 := by
  unfold JsonlFile.updateWhereStep at h
  by_cases hm : jsStrictEq (getAttr j a) v = true
  · rw [if_pos hm] at h
    cases hu : u j with
    | error e => simp [hu] at h
    | ok j2 =>
      simp only [hu] at h
      exact addToScratch_records j2 t t2 h hp
  · rw [if_neg hm] at h
    exact addToScratch_records j t t2 h hp

theorem deleteMatchStep_records {ε : Type} (m : Json → Except ε Bool)
    (j : Json) (t t2 : Option (List Line))
    (h : JsonlFile.deleteMatchStep m j t = .ok t2)
    (hp : scratchRecordsOnly t) : scratchRecordsOnly t2 := by
  unfold JsonlFile.deleteMatchStep at h
  cases hm : m j with
  | error e => simp [hm] at h
  | ok b =>
    cases b with
    | true =>
      simp only [hm] at h
      have : t = t2 := by simpa using h
      rw [← this]; exact hp
    | false =>
      simp only [hm] at h
      exact addToScratch_records j t t2 h hp

theorem deleteWhereStep_records {ε : Type} (a : String) (v : Option Json)
    (j : Json) (t t2 : Option (List Line))
    (h : JsonlFile.deleteWhereStep (ε := ε) a v j t = .ok t2)
    (hp : scratchRecordsOnly t) : scratchRecordsOnly t2 := by
  unfold JsonlFile.deleteWhereStep at h
  by_cases hm : jsStrictEq (getAttr j a) v = true
  · rw [if_pos hm] at h
    have : t = t2 := by simpa using h
    rw [← this]; exact hp
  · rw [if_neg hm] at h
    exact addToScratch_records j t t2 h hp

/-! ## Helpers for the plain line readers -/

theorem readGo_stop_at (cb : Json → Bool) :
    ∀ (rs : List Json) (i : Nat) (h1 : i < rs.length),
      (∀ r ∈ rs.take i, cb r = false) → cb (rs.get ⟨i, h1⟩) = true →
      JsonlFile.readGo cb (rs.map Line.record) = .ok (rs.take (i + 1)) := by
  intro rs
  induction rs with
  | nil => intro i h1; simp at h1
  | cons j rs ih =>
    intro i h1 hpre hstop
    cases i with
    | zero =>
      simp only [List.get] at hstop
      simp [JsonlFile.readGo, decodeLine, hstop]
    | succ i2 =>
      have hj : cb j = false := hpre j (by simp)
      have hpre2 : ∀ r ∈ rs.take i2, cb r = false := by
        intro r hr
        exact hpre r (by simpa using List.mem_cons_of_mem j hr)
      have h12 : i2 < rs.length := by simpa using h1
      have hstop2 : cb (rs.get ⟨i2, h12⟩) = true := by simpa [List.get] using hstop
      have ihh := ih i2 h12 hpre2 hstop2
      simp [JsonlFile.readGo, decodeLine, hj, ihh]

theorem readGo_all :
    ∀ rs : List Json, JsonlFile.readGo (fun _ => false) (rs.map Line.record) = .ok rs := by
  intro rs
  induction rs with
  | nil => rfl
  | cons j rs ih => simp [JsonlFile.readGo, decodeLine, ih]

theorem readLineByLineGo_stop_at {ε : Type} (cb : Json → Bool) :
    ∀ (rs : List Json) (i : Nat) (h1 : i < rs.length),
      (∀ r ∈ rs.take i, cb r = false) → cb (rs.get ⟨i, h1⟩) = true →
      Jsonl.readLineByLineGo (fun j => (Except.ok (cb j) : Except ε Bool)) (rs.map Line.record)
        = rs.take (i + 1) := by
  intro rs
  induction rs with
  | nil => intro i h1; simp at h1
  | cons j rs ih =>
    intro i h1 hpre hstop
    cases i with
    | zero =>
      simp only [List.get] at hstop
      simp [Jsonl.readLineByLineGo, isBlankLine, decodeLine, hstop]
    | succ i2 =>
      have hj : cb j = false := hpre j (by simp)
      have hpre2 : ∀ r ∈ rs.take i2, cb r = false := by
        intro r hr
        exact hpre r (by simpa using List.mem_cons_of_mem j hr)
      have h12 : i2 < rs.length := by simpa using h1
      have hstop2 : cb (rs.get ⟨i2, h12⟩) = true := by simpa [List.get] using hstop
      have ihh := ih i2 h12 hpre2 hstop2
      simp [Jsonl.readLineByLineGo, isBlankLine, decodeLine, hj, ihh]

theorem readLineByLineGo_no_stop {ε : Type} :
    ∀ ls : List Line,
      Jsonl.readLineByLineGo (fun _ => (Except.ok false : Except ε Bool)) ls
        = decodedRecords ls := by
  intro ls
  induction ls with
  | nil => rfl
  | cons l ls ih =>
    cases l with
    | empty => simpa [Jsonl.readLineByLineGo, isBlankLine, decodedRecords, decodeLine] using ih
    | blank => simpa [Jsonl.readLineByLineGo, isBlankLine, decodedRecords, decodeLine] using ih
    | invalid => simpa [Jsonl.readLineByLineGo, isBlankLine, decodedRecords, decodeLine] using ih
    | record j =>
      simp [Jsonl.readLineByLineGo, isBlankLine, decodedRecords, decodeLine, ih]

theorem rlblGo_skip {ε : Type} (onLine : Json → Except ε Bool) (l : Line) (ls : List Line)
    (hl : decodeLine l = none) :
    Jsonl.readLineByLineGo onLine (l :: ls) = Jsonl.readLineByLineGo onLine ls := by
  cases l with
  | empty => rfl
  | blank => rfl
  | invalid => rfl
  | record j => simp [decodeLine] at hl

theorem rlblGo_record {ε : Type} (onLine : Json → Except ε Bool) (j : Json) (ls : List Line) :
    Jsonl.readLineByLineGo onLine (Line.record j :: ls)
      = match onLine j with
        | .error _ => j :: Jsonl.readLineByLineGo onLine ls
        | .ok true => [j]
        | .ok false => j :: Jsonl.readLineByLineGo onLine ls := rfl

theorem decodedRecords_skip (l : Line) (ls : List Line) (hl : decodeLine l = none) :
    decodedRecords (l :: ls) = decodedRecords ls := by
  simp [decodedRecords, List.filterMap_cons, hl]

theorem decodedRecords_record (j : Json) (ls : List Line) :
    decodedRecords (Line.record j :: ls) = j :: decodedRecords ls := by
  simp [decodedRecords, List.filterMap_cons, decodeLine]

theorem readLineByLineGo_take {ε : Type} (onLine : Json → Except ε Bool) :
    ∀ ls : List Line,
      ∃ n, Jsonl.readLineByLineGo onLine ls = (decodedRecords ls).take n := by
  intro ls
  induction ls with
  | nil => exact ⟨0, rfl⟩
  | cons l ls ih =>
    obtain ⟨n, hn⟩ := ih
    cases hl : decodeLine l with
    | none =>
      refine ⟨n, ?_⟩
      rw [rlblGo_skip onLine l ls hl, decodedRecords_skip l ls hl]
      exact hn
    | some j =>
      have hrec : l = Line.record j := by
        cases l with
        | record j2 =>
          have : j2 = j := by simpa [decodeLine] using hl
          rw [this]
        | empty => simp [decodeLine] at hl
        | blank => simp [decodeLine] at hl
        | invalid => simp [decodeLine] at hl
      rw [hrec, rlblGo_record, decodedRecords_record]
      cases ho : onLine j with
      | error e =>
        exact ⟨n + 1, by simp [hn]⟩
      | ok b =>
        cases b with
        | true => exact ⟨1, by simp⟩
        | false => exact ⟨n + 1, by simp [hn]⟩

/-! ## Helpers for the facade projections -/

theorem foldl_append_eq (f : List Json → List Json) :
    ∀ (bs : List (List Json)) (init : List Json),
      bs.foldl (fun acc b => acc ++ f b) init = init ++ (bs.map f).flatten := by
  intro bs
  induction bs with
  | nil => intro init; simp
  | cons b bs ih =>
    intro init
    simp [List.foldl_cons, ih (init ++ f b)]

theorem flatten_filter_map (m : Json → Bool) (u : Json → Json) :
    ∀ bs : List (List Json),
      (bs.map (fun b => (b.filter m).map u)).flatten = (bs.flatten.filter m).map u := by
  intro bs
  induction bs with
  | nil => simp
  | cons b bs ih =>
    simp [List.filter_append, List.map_append, ih]

theorem flatten_filter (p : Json → Bool) :
    ∀ bs : List (List Json),
      (bs.map (List.filter p)).flatten = bs.flatten.filter p := by
  intro bs
  induction bs with
  | nil => simp
  | cons b bs ih =>
    simp only [List.map_cons, List.flatten_cons, List.filter_append, ih]

theorem jsStrictEq_none (x : Option Json) : jsStrictEq x none = x.isNone := by
  cases x <;> rfl

theorem decodedRecords_map_record (rs : List Json) :
    decodedRecords (rs.map Line.record) = rs := by
  rw [decodedRecords, List.filterMap_map]
  have : decodeLine ∘ Line.record = some := rfl
  rw [this, List.filterMap_some]

/-! ## The claims -/

/-- C1: for each of the four mutation operations (updateWhere, updateMatch,
deleteWhere, deleteMatch), if anything fails before the final rename
(predicate or transform callback error included), the source file content
is exactly what it was before the mutation began; the rename is the sole
commit point, and on success the source file holds exactly the sequence of
record lines that was written to the scratch file. -/
theorem mutation_rename_sole_commit {ε : Type} (src : Option (List Line))
    (m : Json → Except ε Bool) (u : Json → Except ε Json) (a : String) (v : Option Json) :
    ((∀ e, (JsonlFile.updateMatch m u src).2 = .error e → (JsonlFile.updateMatch m u src).1 = src)
      ∧ ((JsonlFile.updateMatch m u src).2 = .ok () → ∃ ls c, src = some ls
          ∧ JsonlFile.mutateLoop (JsonlFile.updateMatchStep m u) ls none = .ok (some c)
          ∧ (JsonlFile.updateMatch m u src).1 = some c ∧ scratchRecordsOnly (some c)))
    ∧ ((∀ e, (JsonlFile.updateWhere a v u src).2 = .error e → (JsonlFile.updateWhere a v u src).1 = src)
      ∧ ((JsonlFile.updateWhere a v u src).2 = .ok () → ∃ ls c, src = some ls
          ∧ JsonlFile.mutateLoop (JsonlFile.updateWhereStep a v u) ls none = .ok (some c)
          ∧ (JsonlFile.updateWhere a v u src).1 = some c ∧ scratchRecordsOnly (some c)))
    ∧ ((∀ e, (JsonlFile.deleteMatch m src).2 = .error e → (JsonlFile.deleteMatch m src).1 = src)
      ∧ ((JsonlFile.deleteMatch m src).2 = .ok () → ∃ ls c, src = some ls
          ∧ JsonlFile.mutateLoop (JsonlFile.deleteMatchStep m) ls none = .ok (some c)
          ∧ (JsonlFile.deleteMatch m src).1 = some c ∧ scratchRecordsOnly (some c)))
    ∧ ((∀ e : EngErr ε, (JsonlFile.deleteWhere (ε := ε) a v src).2 = .error e
          → (JsonlFile.deleteWhere (ε := ε) a v src).1 = src)
      ∧ ((JsonlFile.deleteWhere (ε := ε) a v src).2 = .ok () → ∃ ls c, src = some ls
          ∧ JsonlFile.mutateLoop (JsonlFile.deleteWhereStep (ε := ε) a v) ls none = .ok (some c)
          ∧ (JsonlFile.deleteWhere (ε := ε) a v src).1 = some c
          ∧ scratchRecordsOnly (some c))) := by
  have hnone : scratchRecordsOnly none := by
    intro l hl
    simp [Option.getD] at hl
  refine ⟨⟨?_, ?_⟩, ⟨?_, ?_⟩, ⟨?_, ?_⟩, ⟨?_, ?_⟩⟩
  · intro e h
    exact runMutation_error _ src e h
  · intro h
    obtain ⟨ls, c, h1, h2, h3⟩ := runMutation_ok _ src h
    exact ⟨ls, c, h1, h2, h3,
      mutateLoop_records _ (fun j t t2 hs hp => updateMatchStep_records m u j t t2 hs hp)
        ls none (some c) h2 hnone⟩
  · intro e h
    exact runMutation_error _ src e h
  · intro h
    obtain ⟨ls, c, h1, h2, h3⟩ := runMutation_ok _ src h
    exact ⟨ls, c, h1, h2, h3,
      mutateLoop_records _ (fun j t t2 hs hp => updateWhereStep_records a v u j t t2 hs hp)
        ls none (some c) h2 hnone⟩
  · intro e h
    exact runMutation_error _ src e h
  · intro h
    obtain ⟨ls, c, h1, h2, h3⟩ := runMutation_ok _ src h
    exact ⟨ls, c, h1, h2, h3,
      mutateLoop_records _ (fun j t t2 hs hp => deleteMatchStep_records m j t t2 hs hp)
        ls none (some c) h2 hnone⟩
  · intro e h
    exact runMutation_error _ src e h
  · intro h
    obtain ⟨ls, c, h1, h2, h3⟩ := runMutation_ok _ src h
    exact ⟨ls, c, h1, h2, h3,
      mutateLoop_records _ (fun j t t2 hs hp => deleteWhereStep_records a v j t t2 hs hp)
        ls none (some c) h2 hnone⟩

/-- C1 witness: a transform callback that throws on the only record aborts
updateMatch with that callback error, and the source file is unchanged. -/
theorem mutation_rename_sole_commit_witness :
    (JsonlFile.updateMatch (fun _ => (Except.error () : Except Unit Bool))
        (fun j => Except.ok j) (some [Line.record (Json.obj [])])).2
      = Except.error (EngErr.callback ())
    ∧ (JsonlFile.updateMatch (fun _ => (Except.error () : Except Unit Bool))
        (fun j => Except.ok j) (some [Line.record (Json.obj [])])).1
      = some [Line.record (Json.obj [])] :=
  ⟨rfl, (mutation_rename_sole_commit (some [Line.record (Json.obj [])])
      (fun _ => Except.error ()) (fun j => Except.ok j) "a" none).1.1
      (EngErr.callback ()) rfl⟩

/-- C2: readByBatch on a file of n decodable records with positive batch
size k invokes the callback exactly ceil(n over k) times when no stop is
signalled, every batch full except possibly the last, concatenating back to
the records in order; when a stop is signalled, every invoked batch is
full, the batches concatenate to a prefix of the records (the partial next
buffer is discarded, not flushed), the stopping batch is the last invoked,
and no earlier batch signalled.  The first two conjuncts tie the core to
the two line-level engines. -/
theorem readByBatch_spec (records : List Json) (ob : List Json → Bool) (k : Nat) (hk : 0 < k) :
    (JsonlFile.readByBatch (some (records.map Line.record)) ob k
        = .ok (readByBatchRun ob k records))
    ∧ (∀ ls : List Line, Jsonl.read (some ls) (fun b => (Except.ok (ob b) : Except Empty Bool)) k
        = .ok (readByBatchRun ob k (decodedRecords ls)))
    ∧ ((readByBatchRun ob k records).2 = false →
        (readByBatchRun ob k records).1.flatten = records
        ∧ (readByBatchRun ob k records).1.length = (records.length + k - 1) / k
        ∧ (∀ b ∈ (readByBatchRun ob k records).1.dropLast, b.length = k)
        ∧ (∀ b ∈ (readByBatchRun ob k records).1, 0 < b.length ∧ b.length ≤ k))
    ∧ ((readByBatchRun ob k records).2 = true →
        (∀ b ∈ (readByBatchRun ob k records).1, b.length = k)
        ∧ (readByBatchRun ob k records).1.flatten
            = records.take ((readByBatchRun ob k records).1.length * k)
        ∧ (∃ bl, (readByBatchRun ob k records).1.getLast? = some bl ∧ ob bl = true)
        ∧ (∀ b ∈ (readByBatchRun ob k records).1.dropLast, ob b = false)) := by
  refine ⟨readByBatch_records ob k records, ?_, ?_, ?_⟩
  · intro ls
    exact read_pure ob k (some ls)
  · intro h
    have h2 : (batchLoop ob k records []).2.1 = false := by
      rw [← readByBatchRun_snd]; exact h
    obtain ⟨a1, a2, a3, a4, _⟩ := readByBatchRun_no_stop ob k records hk h2
    exact ⟨a1, a2, a3, a4⟩
  · intro h
    have h2 : (batchLoop ob k records []).2.1 = true := by
      rw [← readByBatchRun_snd]; exact h
    exact readByBatchRun_stop ob k records hk h2

/-- C2 witness: three records with batch size two and no stop signal give
two batches, ceil(3 over 2) in number, concatenating to the records. -/
theorem readByBatch_spec_witness :
    0 < 2
    ∧ (readByBatchRun (fun _ => false) 2 [Json.num 1, Json.num 2, Json.num 3]).1.flatten
        = [Json.num 1, Json.num 2, Json.num 3]
    ∧ (readByBatchRun (fun _ => false) 2 [Json.num 1, Json.num 2, Json.num 3]).1.length
        = (3 + 2 - 1) / 2 :=
  ⟨by decide,
    ((readByBatch_spec [Json.num 1, Json.num 2, Json.num 3] (fun _ => false) 2
        (by decide)).2.2.1 rfl).1,
    ((readByBatch_spec [Json.num 1, Json.num 2, Json.num 3] (fun _ => false) 2
        (by decide)).2.2.1 rfl).2.1⟩

/-- C3 counterexample: in the src/jsonlFile.js engine a non-blank line that
fails to parse makes the read traversal itself fail with the parse error,
and the records after it are never seen, contradicting the claim that no
read traversal fails on such a line. -/
theorem read_fails_on_invalid_line :
    JsonlFile.read
      (some [Line.record (Json.obj []), Line.invalid, Line.record (Json.obj [("b", Json.num 2)])])
      (fun _ => false)
      = Except.error EngErr.parseFailure := rfl

/-- C3 amended: in the src/lib/jsonl.ts reader (read, readLineByLine and the
queries built on them), a non-blank line that fails to parse is skipped
with a non-fatal warning: the traversal never fails because of it, the line
is absent from all decoded results, and the reads leave the file content
untouched.  The src/jsonlFile.js engine instead propagates the JSON.parse
exception. -/
theorem ts_reader_skips_invalid_lines {ε : Type} (content : Option (List Line))
    (onLine : Json → Except ε Bool) (k : Nat) (hk : 0 < k) :
    Jsonl.readLineByLine content (fun _ => (Except.ok false : Except ε Bool)) = decodedFile content
    ∧ (∃ n, Jsonl.readLineByLine content onLine = (decodedFile content).take n)
    ∧ (∀ ob : List Json → Bool,
        Jsonl.read content (fun b => (Except.ok (ob b) : Except Empty Bool)) k
          = .ok (readByBatchRun ob k (decodedFile content)))
    ∧ (Jsonl.batches content (fun _ => false) k).1.flatten = decodedFile content
    ∧ (Jsonl.readLineByLineFS content onLine).1 = content
    ∧ (∀ ob : List Json → Except ε Bool, (Jsonl.readFS content ob k).1 = content) := by
  refine ⟨?_, ?_, ?_, ?_, rfl, fun _ => rfl⟩
  · cases content with
    | none => rfl
    | some ls => exact readLineByLineGo_no_stop ls
  · cases content with
    | none => exact ⟨0, rfl⟩
    | some ls => exact readLineByLineGo_take onLine ls
  · intro ob
    exact read_pure ob k content
  · rw [batches_eq]
    have hflag : (batchLoop (fun _ => false) k (decodedFile content) []).2.1 = false :=
      batchLoop_false_flag k (decodedFile content) []
    exact (readByBatchRun_no_stop (fun _ => false) k (decodedFile content) hk hflag).1

/-- C3 amended witness: a file with one record line and one invalid line
reads as exactly the one record through the jsonl.ts line reader. -/
theorem ts_reader_skips_invalid_lines_witness :
    0 < 2
    ∧ Jsonl.readLineByLine (some [Line.record (Json.obj []), Line.invalid])
        (fun _ => (Except.ok false : Except Unit Bool)) = [Json.obj []] :=
  ⟨by decide,
    (ts_reader_skips_invalid_lines (some [Line.record (Json.obj []), Line.invalid])
      (fun _ => (Except.ok false : Except Unit Bool)) 2 (by decide)).1⟩

/-- C4: code-bug evaluation.  In src/lib/jsonl.ts readLineByLine the catch
block written for JSON.parse failures (its warning reads as skipping an
invalid JSON line) also catches errors thrown by the caller-supplied line
callback: with a callback that throws on every record, the traversal
neither propagates the error nor aborts; it visits both records and
completes normally, contradicting the claim that callback errors are never
caught and swallowed by the engine. -/
theorem readLineByLine_swallows_callback_error :
    Jsonl.readLineByLine
      (some [Line.record (Json.obj [("a", Json.num 1)]), Line.record (Json.obj [("a", Json.num 2)])])
      (fun _ => (Except.error () : Except Unit Bool))
      = [Json.obj [("a", Json.num 1)], Json.obj [("a", Json.num 2)]] := rfl

/-- C5: code-bug evaluation.  deleteMatch with a predicate matching every
record never appends to the scratch file, so the scratch file is never
created; the final rename of the never-created scratch path fails with
enoent and the source file still holds the record that should have been
deleted: the count after the call is not the count before minus the number
of matches. -/
theorem deleteMatch_delete_all_fails :
    JsonlFile.deleteMatch (fun _ => (Except.ok true : Except Unit Bool))
      (some [Line.record (Json.obj [("a", Json.num 1)])])
      = (some [Line.record (Json.obj [("a", Json.num 1)])], Except.error EngErr.enoent) := rfl

/-- C6: a read callback returning the stop signal on the record at index i
halts the traversal immediately: the callback is invoked on exactly the
records up to and including index i in both engines, and a subsequent
independent full read over the same file content still sees every
record. -/
theorem read_early_stop (rs : List Json) (cb : Json → Bool) (i : Nat) (h1 : i < rs.length)
    (h2 : cb (rs.get ⟨i, h1⟩) = true) (h3 : ∀ r ∈ rs.take i, cb r = false) :
    JsonlFile.read (some (rs.map Line.record)) cb = .ok (rs.take (i + 1))
    ∧ Jsonl.readLineByLine (some (rs.map Line.record))
        (fun j => (Except.ok (cb j) : Except Unit Bool)) = rs.take (i + 1)
    ∧ JsonlFile.read (some (rs.map Line.record)) (fun _ => false) = .ok rs
    ∧ Jsonl.readLineByLine (some (rs.map Line.record))
        (fun _ => (Except.ok false : Except Unit Bool)) = rs := by
  refine ⟨readGo_stop_at cb rs i h1 h3 h2, readLineByLineGo_stop_at cb rs i h1 h3 h2,
    readGo_all rs, ?_⟩
  have h := readLineByLineGo_no_stop (ε := Unit) (rs.map Line.record)
  rw [decodedRecords_map_record] at h
  exact h

/-- C6 witness: stopping on the second of three records reads exactly the
first two. -/
theorem read_early_stop_witness :
    jsPrimEq (Json.num 2) (Json.num 2) = true
    ∧ JsonlFile.read (some ([Json.num 1, Json.num 2, Json.num 3].map Line.record))
        (fun j => jsPrimEq j (Json.num 2)) = Except.ok [Json.num 1, Json.num 2] :=
  ⟨rfl, (read_early_stop [Json.num 1, Json.num 2, Json.num 3]
      (fun j => jsPrimEq j (Json.num 2)) 1 (by decide) rfl
      (by
        intro r hr
        have h : r = Json.num 1 := by simpa using hr
        rw [h]
        rfl)).1⟩

/-- C7 counterexample: in the src/jsonlFile.js engine a read over a path
that resolves to no file does not produce the empty sequence; the stream
error propagates, contradicting the claim that every read traversal over a
missing file completes without error. -/
theorem read_missing_file_errors :
    JsonlFile.read none (fun _ => false) = Except.error EngErr.enoent := rfl

/-- C7 amended: the src/lib/jsonl.ts engine checks existence first: over a
missing file, read and readLineByLine invoke their callback zero times and
complete without error, and count is zero.  The src/jsonlFile.js engine
instead propagates the stream error of createReadStream. -/
theorem ts_missing_file_reads_empty {ε : Type} (ob : List Json → Except ε Bool)
    (onLine : Json → Except ε Bool) (k : Nat) :
    Jsonl.read none ob k = .ok ([], false)
    ∧ Jsonl.readLineByLine none onLine = []
    ∧ Jsonl.count none = 0 :=
  ⟨rfl, rfl, rfl⟩

/-- C8 counterexample: a file whose first line is the zero-length line and
whose second line decodes to a record has one decodable record, yet first()
fails with the File-is-empty error (the captured first line is the falsy
empty string), so the claimed equivalence, failing with EmptyFile iff the
file has zero decodable records, is false. -/
theorem first_empty_line_not_iff :
    JsonlFile.first (some [Line.empty, Line.record (Json.obj [("a", Json.num 1)])])
      = Except.error EngErr.emptyFile
    ∧ decodedRecords [Line.empty, Line.record (Json.obj [("a", Json.num 1)])]
      = [Json.obj [("a", Json.num 1)]] :=
  ⟨rfl, rfl⟩

/-- C8 amended: on an existing file all of whose lines decode to records,
first() and last() fail with the EmptyFile condition iff the file has zero
records; otherwise first() returns the first decoded record and last() the
last decoded record in file order.  On other files the equivalence fails: a
leading or trailing zero-length line raises EmptyFile despite decodable
records being present, and an undecodable first or last line raises a parse
error rather than EmptyFile. -/
theorem first_last_on_record_files (rs : List Json) :
    (JsonlFile.first (some (rs.map Line.record)) = Except.error EngErr.emptyFile ↔ rs = [])
    ∧ (JsonlFile.last (some (rs.map Line.record)) = Except.error EngErr.emptyFile ↔ rs = [])
    ∧ (∀ j rs2, rs = j :: rs2 → JsonlFile.first (some (rs.map Line.record)) = .ok j)
    ∧ (∀ j, rs.getLast? = some j → JsonlFile.last (some (rs.map Line.record)) = .ok j) := by
  have hlast : ∀ j, rs.getLast? = some j →
      JsonlFile.last (some (rs.map Line.record)) = .ok j := by
    intro j hj
    have hmap : (rs.map Line.record).getLast? = some (Line.record j) := by
      rw [List.getLast?_map, hj]
      rfl
    simp [JsonlFile.last, hmap, decodeLine]
  refine ⟨?_, ?_, ?_, hlast⟩
  · cases rs with
    | nil => simp [JsonlFile.first]
    | cons j rs2 =>
      simp [JsonlFile.first, decodeLine]
  · constructor
    · intro h
      cases hl : rs.getLast? with
      | none => exact List.getLast?_eq_none_iff.mp hl
      | some j =>
        rw [hlast j hl] at h
        simp at h
    · intro h
      rw [h]
      simp [JsonlFile.last]
  · intro j rs2 h
    rw [h]
    simp [JsonlFile.first, decodeLine]

/-- C8 amended witness: on a two-record file, last() returns the second
record. -/
theorem first_last_on_record_files_witness :
    [Json.num 1, Json.num 2].getLast? = some (Json.num 2)
    ∧ JsonlFile.last (some ([Json.num 1, Json.num 2].map Line.record)) = Except.ok (Json.num 2) :=
  ⟨rfl, (first_last_on_record_files [Json.num 1, Json.num 2]).2.2.2 (Json.num 2) rfl⟩

/-- C9: in the directory-collection facade, update returns the array of
transformed matching records and delete returns the array of surviving
records, in file order, and both leave the underlying file content
unchanged: they are pure projections, not mutations. -/
theorem facade_update_delete_pure (content : Option (List Line)) (m : Json → Bool)
    (u : Json → Json) :
    JsonlDir.update content m u = (content, ((decodedFile content).filter m).map u)
    ∧ JsonlDir.delete content m = (content, (decodedFile content).filter (fun j => !(m j))) := by
  have hflag : (batchLoop (fun _ => false) 1000 (decodedFile content) []).2.1 = false :=
    batchLoop_false_flag 1000 (decodedFile content) []
  have hflat := (readByBatchRun_no_stop (fun _ => false) 1000 (decodedFile content)
    (by decide) hflag).1
  constructor
  · unfold JsonlDir.update
    rw [batches_eq, foldl_append_eq, flatten_filter_map, hflat]
    simp
  · unfold JsonlDir.delete
    rw [batches_eq, foldl_append_eq, flatten_filter, hflat]
    simp

/-- C10: findWhere(attribute, undefined) matches exactly the records where
the attribute is absent, because a missing field reads as undefined and
undefined strictly equals undefined: it returns the first decoded record
lacking the attribute, and its result coincides with the not-found sentinel
(undefined) iff every record carries the attribute. -/
theorem findWhere_undefined_absent (records : List Json) (a : String) :
    JsonlFile.findWhere a none records = records.find? (fun r => (getAttr r a).isNone)
    ∧ (JsonlFile.findWhere a none records = none ↔ ∀ r ∈ records, (getAttr r a).isSome) := by
  have h1 : ∀ rs : List Json,
      JsonlFile.findWhere a none rs = rs.find? (fun r => (getAttr r a).isNone) := by
    intro rs
    induction rs with
    | nil => rfl
    | cons j rs ih =>
      rw [JsonlFile.findWhere, jsStrictEq_none, List.find?_cons]
      cases hj : (getAttr j a).isNone with
      | true => simp [hj]
      | false => simp [hj, ih]
  refine ⟨h1 records, ?_⟩
  rw [h1 records, List.find?_eq_none]
  constructor
  · intro h r hr
    cases hga : getAttr r a with
    | none =>
      have := h r hr
      rw [hga] at this
      simp at this
    | some x => simp [hga]
  · intro h r hr
    cases hga : getAttr r a with
    | none =>
      have := h r hr
      rw [hga] at this
      simp at this
    | some x => simp [hga]

/-- C10 witness: with value undefined, the first record lacking the field is
returned even though another record carries it. -/
theorem findWhere_undefined_absent_witness :
    JsonlFile.findWhere "a" none [Json.obj [("b", Json.num 1)], Json.obj [("a", Json.num 2)]]
      = some (Json.obj [("b", Json.num 1)]) :=
  ((findWhere_undefined_absent [Json.obj [("b", Json.num 1)], Json.obj [("a", Json.num 2)]]
    "a").1).trans rfl

/-- C7 amended witness: count over a missing file is zero. -/
theorem ts_missing_file_reads_empty_witness :
    Jsonl.count none = 0 :=
  (ts_missing_file_reads_empty (fun _ => (Except.ok false : Except Unit Bool))
    (fun _ => Except.ok false) 5).2.2

/-- C9 witness: a facade update matching everything returns the decoded
records and leaves the file content in place. -/
theorem facade_update_delete_pure_witness :
    JsonlDir.update (some [Line.record (Json.obj [("a", Json.num 1)]), Line.invalid])
        (fun _ => true) (fun j => j)
      = (some [Line.record (Json.obj [("a", Json.num 1)]), Line.invalid],
         [Json.obj [("a", Json.num 1)]]) :=
  ((facade_update_delete_pure (some [Line.record (Json.obj [("a", Json.num 1)]), Line.invalid])
    (fun _ => true) (fun j => j)).1).trans rfl
